import Mathlib

/-!
Verification of the adaptive retrieval-and-filtering engine of the
D&D 1st-edition RAG system.

The definitions below are a shallow embedding of the retrieval engine:

* the predicate evaluator of src/query/query_must_filter.py
  (validate_contain_one_of, validate_contain_all_of, validate_contain,
  validate_contain_range, satisfies_query_must);
* the gap-based cutoff selector, the entity-comparison result augmenter and
  the parent-category injection of DnDRAG._retrieve_base in
  src/query/docling_query.py;
* the iterative filtering loop of DnDRAG._retrieve_with_filtering in
  src/query/docling_query.py.

Modelling conventions: Python floats are embedded as rationals, Python
strings as Lean String or List Char (ASCII case folding, as all the
engine's fixed patterns and test queries are ASCII), Python sets of ids as
Finset String, and the external ChromaDB collection as an oracle function
passed in as a parameter.  Python exceptions that escape the engine
(the KeyError raised by validate_contain_range on a missing min/max key)
are embedded with Except Unit.  JSON parsing of the query_must metadata
string is external to the engine (Python's json module), so a metadata
value carries the parse OUTCOME: either QMRaw.malformed (json.loads
raises JSONDecodeError) or QMRaw.parsed applied to the parsed clause set.
-/

/-! ## Character and string helpers -/

/-- Word characters of the regex escape class w, restricted to ASCII:
letters, digits and underscore. -/
def isWordChar (c : Char) : Bool := c.isAlphanum || c == '_'

/-- Word-character test lifted to an optional character; a missing
character (start or end of the text) counts as non-word. -/
def isWordOpt : Option Char → Bool
  | none => false
  | some c => isWordChar c

/-- Regex word boundary between an optional previous character and an
optional next character: exactly one side is a word character. -/
def boundaryBool (a b : Option Char) : Bool := isWordOpt a != isWordOpt b

/-- Python str.strip embedded on character lists: remove leading and
trailing whitespace. -/
def pyStrip (l : List Char) : List Char :=
  ((l.dropWhile Char.isWhitespace).reverse.dropWhile Char.isWhitespace).reverse

/-- Python substring containment (the in operator on str). -/
def isSubstrOf (needle hay : List Char) : Bool :=
  (List.range (hay.length + 1)).any (fun i => decide ((hay.drop i).take needle.length = needle))

/-- Match of the regex pattern consisting of a word boundary, the literal
(escaped) term t, and a word boundary, anchored at position i of q.
For the empty term the two boundaries coincide at position i. -/
def matchesAt (t q : List Char) (i : Nat) : Bool :=
  match t with
  | [] => boundaryBool ((q.take i).getLast?) ((q.drop i).head?)
  | c :: _ =>
    decide ((q.drop i).take t.length = t) &&
    boundaryBool ((q.take i).getLast?) (some c) &&
    boundaryBool t.getLast? ((q.drop (i + t.length)).head?)

/-- Python re.search of the pattern word-boundary + literal term +
word-boundary over the whole text: some anchor position matches. -/
def reSearch (t q : List Char) : Bool :=
  (List.range (q.length + 1)).any (fun i => matchesAt t q i)

/-- Python re.search of the pattern word-boundary + literal term + an
optional letter s + word-boundary (the plural-tolerant pattern of
validate_contain).  A match at i is a match of term ++ s or of term alone,
both with surrounding boundaries. -/
def rePluralSearch (t q : List Char) : Bool :=
  (List.range (q.length + 1)).any
    (fun i => matchesAt (t ++ ['s']) q i || matchesAt t q i)

/-- Integer value of a run of ASCII digits (Python int applied to the
matched digit substring). -/
def natOfDigits (l : List Char) : Nat := l.foldl (fun n c => 10 * n + (c.toNat - 48)) 0

/-- Fuel-driven scanner of the digit pattern.  The fuel only serves to
make the recursion structural (each step consumes at least one character,
so any fuel of at least the text length yields the scan of the whole
text); the boolean argument records whether the character immediately
before the remaining text is a word character. -/
def extractNumsF : Nat → Bool → List Char → List Nat
  | 0, _, _ => []
  | _ + 1, _, [] => []
  | fuel + 1, prevWord, c :: cs =>
    if c.isDigit then
      let run := c :: cs.takeWhile Char.isDigit
      let rest := cs.dropWhile Char.isDigit
      let okTrail : Bool :=
        match rest.head? with
        | none => true
        | some d => !(isWordChar d)
      (if !prevWord && okTrail then [natOfDigits run] else []) ++ extractNumsF fuel true rest
    else
      extractNumsF fuel (isWordChar c) cs

/-- Embedding of re.findall applied to the digit pattern of
validate_contain_range: a word boundary, one or more digits, and a word
boundary.  Each maximal digit run is extracted exactly when its
neighbours on both sides are absent or non-word characters. -/
def extractNums (prevWord : Bool) (l : List Char) : List Nat :=
  extractNumsF l.length prevWord l

/-! ## Predicate evaluator (query_must_filter.py) -/

/-- Inclusive integer range clause of a query_must predicate.  The two
fields model the min and max keys of the JSON object; a missing key is
none (reading it raises KeyError in the source). -/
structure RangeSpec where
  min : Option Int
  max : Option Int
deriving DecidableEq, Repr

/-- Parsed query_must clause set.  Each field models one optional operator
key of the parsed JSON object. -/
structure QueryMust where
  contain_one_of : Option (List (List String)) := none
  contain_all_of : Option (List String) := none
  contain : Option String := none
  contain_range : Option RangeSpec := none
deriving DecidableEq, Repr

/-- Truthiness test of the parsed query_must dict restricted to its
operator keys (the source tests not query_must; a dict holding only
non-operator keys behaves identically to the empty dict because every
validator passes vacuously). -/
def QueryMust.isEmptyDict (qm : QueryMust) : Bool :=
  qm.contain_one_of.isNone && qm.contain_all_of.isNone &&
  qm.contain.isNone && qm.contain_range.isNone

/-- validate_contain_one_of: AND of ORs.  Every term group must hold at
least one term matching the lowered query at word boundaries. -/
def validate_contain_one_of (q : String) (groups : Option (List (List String))) : Bool :=
  match groups with
  | none => true
  | some gs =>
    gs.all (fun g =>
      g.any (fun t => reSearch (t.toList.map Char.toLower) (q.toList.map Char.toLower)))

/-- validate_contain_all_of: every term must match the lowered query at
word boundaries. -/
def validate_contain_all_of (q : String) (terms : Option (List String)) : Bool :=
  match terms with
  | none => true
  | some ts =>
    ts.all (fun t => reSearch (t.toList.map Char.toLower) (q.toList.map Char.toLower))

/-- validate_contain: the single term must match the lowered query at word
boundaries, tolerating an optional trailing s. -/
def validate_contain (q : String) (term : Option String) : Bool :=
  match term with
  | none => true
  | some t => rePluralSearch (t.toList.map Char.toLower) (q.toList.map Char.toLower)

/-- validate_contain_range: extract the integers of the query with the
word-boundary digit pattern and test whether one falls in the inclusive
range.  Reading a missing min or max key raises KeyError in the source,
embedded as Except.error; min is read first. -/
def validate_contain_range (q : String) (cr : Option RangeSpec) : Except Unit Bool :=
  match cr with
  | none => .ok true
  | some r =>
    match r.min with
    | none => .error ()
    | some mn =>
      match r.max with
      | none => .error ()
      | some mx =>
        .ok ((extractNums false q.toList).any
          (fun n => decide (mn ≤ (n : Int)) && decide ((n : Int) ≤ mx)))

/-- satisfies_query_must: an empty clause set always passes; otherwise the
four validators are evaluated in source order and combined with AND.  The
KeyError of validate_contain_range propagates. -/
def satisfies_query_must (q : String) (qm : QueryMust) : Except Unit Bool :=
  if qm.isEmptyDict then .ok true
  else if !(validate_contain_one_of q qm.contain_one_of) then .ok false
  else if !(validate_contain_all_of q qm.contain_all_of) then .ok false
  else if !(validate_contain q qm.contain) then .ok false
  else validate_contain_range q qm.contain_range

/-! ## Gap-based cutoff selector (docling_query.py, lines 276-345 and 562-616) -/

/-- Consecutive distance gaps paired with the position after the gap,
computed for positions i of the Python range from 2 to min(len, k). -/
def gapList (k : Nat) (ds : List ℚ) : List (Nat × ℚ) :=
  (List.range' 2 (min ds.length k - 2)).map
    (fun i => (i, ds.getD i 0 - ds.getD (i - 1) 0))

/-- Python max with a key function on the second component: the first
element attaining the maximum wins (later elements replace the current
best only when strictly greater). -/
def pyMaxBySnd (hd : Nat × ℚ) (tl : List (Nat × ℚ)) : Nat × ℚ :=
  tl.foldl (fun b x => if b.2 < x.2 then x else b) hd

/-- Count of leading distances within the cutoff, stopping at the first
distance that exceeds it (the for-loop with break of the source). -/
def scanCount (cutoff : ℚ) : List ℚ → Nat
  | [] => 0
  | d :: ds => if d ≤ cutoff then scanCount cutoff ds + 1 else 0

/-- Keep count before the final clamps: position of the largest gap when
that gap reaches the fixed cliff threshold 0.06, otherwise the relative
distance-threshold scan anchored at the best distance.  The source only
evaluates this on a non-empty distance list; the empty case is 0. -/
def preKeepCount (k : Nat) (thr : ℚ) (ds : List ℚ) : Nat :=
  let cliff : Option Nat :=
    match gapList k ds with
    | [] => none
    | g :: gs =>
      let m := pyMaxBySnd g gs
      if (6 : ℚ)/100 ≤ m.2 then some m.1 else none
  match cliff, ds with
  | some pos, _ => pos
  | none, [] => 0
  | none, d0 :: rest => 1 + scanCount (d0 + thr) rest

/-- Final keep count: the pre-clamp count forced up to 2 when more than
one distance is available (down to 1 otherwise), then capped by k and by
the list length. -/
def keepCountFn (k : Nat) (thr : ℚ) (ds : List ℚ) : Nat :=
  min (min (if 1 < ds.length then max 2 (preKeepCount k thr ds) else 1) k) ds.length

/-! ## Data model -/

/-- Raw query_must metadata value as seen by the filtering loop: the
stored JSON string either fails to parse (malformed) or parses to a
clause set. -/
inductive QMRaw where
  | malformed : QMRaw
  | parsed : QueryMust → QMRaw
deriving DecidableEq, Repr

/-- Metadata mapping of a passage, restricted to the keys the engine
reads.  The sectionTag field models the metadata key named section (a Lean
keyword). -/
structure Metadata where
  name : Option String := none
  uid : Option String := none
  typ : Option String := none
  sectionTag : Option String := none
  parent_category_id : Option String := none
  query_must : Option QMRaw := none
deriving DecidableEq, Repr

/-- Retrieved passage: identifier, document text, metadata and similarity
distance.  The four parallel result lists of the ChromaDB result dict are
embedded as one list of hits. -/
structure Hit where
  id : String
  document : String
  metadata : Metadata
  distance : ℚ
deriving DecidableEq, Repr

instance : Inhabited Metadata := ⟨{}⟩

instance : Inhabited Hit := ⟨⟨"", "", default, 0⟩⟩

/-- Deduplication key of a hit in the filtering loop:
metadata.get(uid, chunk_id). -/
def Hit.uidKey (h : Hit) : String := h.metadata.uid.getD h.id

/-- Cutoff application on a hit list (the trim step at the end of both
retrieval paths, guarded by a non-empty result list). -/
def applyCutoff (k : Nat) (thr : ℚ) (hits : List Hit) : List Hit :=
  if 0 < hits.length then hits.take (keepCountFn k thr (hits.map Hit.distance)) else hits

/-! ## Result augmenter (docling_query.py, lines 176-274) -/

/-- Name normalisation applied to a retrieved name before the exact-match
comparison: prefix before the first opening parenthesis, stripped, then
lowered. -/
def pySplitParenStripLower (name : List Char) : List Char :=
  (pyStrip (name.takeWhile (fun c => c ≠ '('))).map Char.toLower

/-- Best match of one entity against the list of retrieved (lowered)
names: a left-to-right fold over the enumerated names carrying
(found, best index, best quality), where an exact match of the
parenthesis-stripped name has quality 2 and a substring match in either
direction has quality 1; the first match of the highest quality wins. -/
def bestNameMatch (entity : String) (names : List (List Char)) : Option Nat :=
  let el := pyStrip (entity.toList.map Char.toLower)
  let res := names.enum.foldl
    (fun (st : Bool × Nat × Nat) p =>
      let bn := pySplitParenStripLower p.2
      if bn = el then
        (if st.2.2 < 2 then (true, p.1, 2) else st)
      else if st.2.2 < 1 ∧ (isSubstrOf el p.2 || isSubstrOf p.2 el) then (true, p.1, 1)
      else st)
    (false, 0, 0)
  if res.1 then some res.2.1 else none

/-- Scan of all detected entities: matched entities contribute the index
of their best match, unmatched entities are collected for the targeted
follow-up lookups. -/
def entityScan (entities : List String) (names : List (List Char)) : List Nat × List String :=
  entities.foldl
    (fun acc e =>
      match bestNameMatch e names with
      | some idx => (acc.1 ++ [idx], acc.2)
      | none => (acc.1, acc.2 ++ [e]))
    ([], [])

/-- Python del on a list at index i. -/
def removeAt (l : List Hit) (i : Nat) : List Hit := l.take i ++ l.drop (i + 1)

/-- Insertion step of a descending sort (Python list.sort with
reverse=True on the matched indices). -/
def insertDescNat (x : Nat) : List Nat → List Nat
  | [] => [x]
  | y :: ys => if y < x then x :: y :: ys else y :: insertDescNat x ys

/-- Descending stable sort of the matched indices. -/
def sortDescNat (l : List Nat) : List Nat := l.foldl (fun acc x => insertDescNat x acc) []

/-- Extraction phase of the repositioning: walk the descending-sorted
indices, appending each indexed hit to the matched list and deleting it
from the working list. -/
def extractMatched (hits : List Hit) (idxs : List Nat) : List Hit × List Hit :=
  idxs.foldl
    (fun (acc : List Hit × List Hit) i => (acc.1 ++ [acc.2.getD i default], removeAt acc.2 i))
    ([], hits)

/-- Entity repositioning of _retrieve_base (lines 213-239): sort matched
indices descending, extract the matched hits, reverse them, then insert
each in turn at position 0 of the remaining list. -/
def entityReposition (entities : List String) (hits : List Hit) : List Hit :=
  let names := hits.map (fun h => (h.metadata.name.getD "").toList.map Char.toLower)
  let scan := entityScan entities names
  if scan.1.isEmpty then hits
  else
    let ext := extractMatched hits (sortDescNat scan.1)
    ext.1.reverse.foldl (fun l item => item :: l) ext.2

/-- Entity augmentation including the targeted lookups for unmatched
entities (lines 241-253): the lookup oracle models a one-result
collection.query on the entity text; an empty result is skipped. -/
def entityAugment (lookup : String → Option Hit) (entities : List String) (hits : List Hit) :
    List Hit :=
  let names := hits.map (fun h => (h.metadata.name.getD "").toList.map Char.toLower)
  let scan := entityScan entities names
  let hits1 :=
    if scan.1.isEmpty then hits
    else
      let ext := extractMatched hits (sortDescNat scan.1)
      ext.1.reverse.foldl (fun l item => item :: l) ext.2
  scan.2.foldl
    (fun l e =>
      match lookup e with
      | some h => l ++ [h]
      | none => l)
    hits1

/-- Parent-category injection of _retrieve_base (lines 257-274): when the
top hit's metadata carries a truthy parent_category_id that is not among
the returned identifiers, fetch the category by id (best effort: a failed
or empty fetch leaves the list unchanged) and insert it at position 1 with
a synthetic distance equal to the top distance plus 0.05. -/
def parentCategoryInject (getById : String → Option (String × String × Metadata))
    (hits : List Hit) : List Hit :=
  match hits with
  | [] => []
  | h0 :: rest =>
    match h0.metadata.parent_category_id with
    | none => h0 :: rest
    | some cid =>
      if cid = "" then h0 :: rest
      else if cid ∈ (h0 :: rest).map Hit.id then h0 :: rest
      else
        match getById cid with
        | none => h0 :: rest
        | some cat =>
          h0 :: ⟨cat.1, cat.2.1, cat.2.2, h0.distance + (5 : ℚ)/100⟩ :: rest

/-! ## Iterative filtering loop (_retrieve_with_filtering) -/

/-- Per-chunk decision of the filtering loop body (lines 431-496):
skip when the uid was already kept, keep reference chunks and chunks
without query_must metadata unconditionally, keep malformed query_must
(fail open on JSONDecodeError), otherwise evaluate the parsed predicate;
an exception of the evaluator propagates. -/
inductive Decision where
  | skip : Decision
  | keep : Decision
  | exclude : Decision
deriving DecidableEq, Repr

/-- Decision for a single retrieved chunk given the set of already-kept
uids. -/
def chunkDecision (q : String) (keptIds : Finset String) (h : Hit) : Except Unit Decision :=
  if h.uidKey ∈ keptIds then .ok .skip
  else
    let isRef := h.metadata.typ = some "reference" ∧
      h.metadata.sectionTag = some "EXPLANATORY NOTES"
    match h.metadata.query_must with
    | none => .ok .keep
    | some raw =>
      if isRef then .ok .keep
      else
        match raw with
        | .malformed => .ok .keep
        | .parsed qm =>
          match satisfies_query_must q qm with
          | .error e => .error e
          | .ok true => .ok .keep
          | .ok false => .ok .exclude

/-- One chunk step of the batch fold, updating the newly-kept list, the
rejection count of the round, and the kept and excluded uid sets. -/
def batchStep (q : String) (acc : List Hit × Nat × Finset String × Finset String) (h : Hit) :
    Except Unit (List Hit × Nat × Finset String × Finset String) :=
  match chunkDecision q acc.2.2.1 h with
  | .error e => .error e
  | .ok .skip => .ok acc
  | .ok .keep => .ok (acc.1 ++ [h], acc.2.1, insert h.uidKey acc.2.2.1, acc.2.2.2)
  | .ok .exclude => .ok (acc.1, acc.2.1 + 1, acc.2.2.1, insert h.uidKey acc.2.2.2)

/-- Filtering pass over one retrieved batch. -/
def processBatch (q : String) (hits : List Hit) (keptIds excludedIds : Finset String) :
    Except Unit (List Hit × Nat × Finset String × Finset String) :=
  hits.foldlM (batchStep q) ([], 0, keptIds, excludedIds)

/-- Per-request state of the iterative retrieval controller. -/
structure LoopState where
  excludedIds : Finset String
  keptIds : Finset String
  allKept : List Hit

/-- Iterative retrieval loop (lines 388-521).  The store oracle models
collection.query with the fixed per-request embedding: it receives the
requested result count and the set of uids excluded with the where
clause, and returns the batch.  The fuel is the remaining iteration
budget; the returned number counts the vector-store queries issued.
The loop stops after a round when the kept total reaches k, when the
store returned no candidates, when the round produced no new chunks, or
when the round produced no rejections. -/
def filterLoop (store : Nat → Finset String → List Hit) (q : String) (k : Nat) :
    Nat → LoopState → Except Unit (LoopState × Nat)
  | 0, st => .ok (st, 0)
  | fuel + 1, st =>
    let batch := store k (st.excludedIds ∪ st.keptIds)
    if batch.isEmpty then .ok (st, 1)
    else
      match processBatch q batch st.keptIds st.excludedIds with
      | .error e => .error e
      | .ok (nk, ne, kIds, eIds) =>
        let st' : LoopState := ⟨eIds, kIds, st.allKept ++ nk⟩
        if k ≤ st'.allKept.length then .ok (st', 1)
        else if ne = 0 ∧ nk.length = 0 then .ok (st', 1)
        else if ne = 0 then .ok (st', 1)
        else
          match filterLoop store q k fuel st' with
          | .ok res => .ok (res.1, res.2 + 1)
          | .error e => .error e

/-- Insertion step of the stable ascending sort by distance (Python
list.sort with a distance key). -/
def insertByDistance (x : Hit) : List Hit → List Hit
  | [] => [x]
  | y :: ys => if x.distance < y.distance then x :: y :: ys else y :: insertByDistance x ys

/-- Stable ascending sort of the kept chunks by distance. -/
def sortByDistance (l : List Hit) : List Hit :=
  l.foldl (fun acc x => insertByDistance x acc) []

/-- Finalisation and full filtering-enabled retrieval
(_retrieve_with_filtering, lines 373-618): run the loop from empty state,
return an explicitly empty result when nothing was kept, otherwise sort
the kept chunks by ascending distance, truncate to k and apply the gap
cutoff.  No augmenter enhancement is invoked on this path. -/
def retrieve_with_filtering (store : Nat → Finset String → List Hit) (q : String) (k : Nat)
    (thr : ℚ) (maxIter : Nat) : Except Unit (List Hit) :=
  match filterLoop store q k maxIter ⟨∅, ∅, []⟩ with
  | .error e => .error e
  | .ok (st, _) =>
    if st.allKept.isEmpty then .ok []
    else .ok (applyCutoff k thr ((sortByDistance st.allKept).take k))

/-! ## Specification-side predicates used to state the claims -/

/-- Leading-boundary condition of a digit run in the spec sense: the run
either starts the text (the flag then records a non-word left context) or
follows a non-word character. -/
def PreBoundary (pw : Bool) (pre : List Char) : Prop :=
  (pre = [] ∧ pw = false) ∨ ∃ pre0 c0, pre = pre0 ++ [c0] ∧ isWordChar c0 = false

/-- Trailing-boundary condition of a digit run: the run ends the text or
is followed by a non-word character. -/
def PostBoundary (post : List Char) : Prop :=
  post = [] ∨ ∃ c0 post0, post = c0 :: post0 ∧ isWordChar c0 = false

/-- Word-boundary-delimited digit run of value n inside the text l, with
the left-context flag pw standing for the character just before l. -/
def GoodRun (pw : Bool) (l : List Char) (n : Nat) : Prop :=
  ∃ pre run post, l = pre ++ run ++ post ∧ run ≠ [] ∧ (∀ c ∈ run, c.isDigit = true) ∧
    PreBoundary pw pre ∧ PostBoundary post ∧ n = natOfDigits run

/-- Maximal run of digits of value n inside the text l, exactly as the
claim words it: the neighbours, when present, are merely non-digits. -/
def MaxDigitRun (l : List Char) (n : Nat) : Prop :=
  ∃ pre run post, l = pre ++ run ++ post ∧ run ≠ [] ∧ (∀ c ∈ run, c.isDigit = true) ∧
    (pre = [] ∨ ∃ pre0 c0, pre = pre0 ++ [c0] ∧ c0.isDigit = false) ∧
    (post = [] ∨ ∃ c0 post0, post = c0 :: post0 ∧ c0.isDigit = false) ∧
    n = natOfDigits run

/-- Invariant of the iterative loop state: the kept chunks carry pairwise
distinct uids, each recorded in the kept-uid set. -/
def LoopInv (st : LoopState) : Prop :=
  (st.allKept.map Hit.uidKey).Nodup ∧ ∀ x ∈ st.allKept, x.uidKey ∈ st.keptIds

/-- Invariant of the batch fold relative to the kept-uid set at the start
of the round. -/
def BatchInv (kIds0 : Finset String) (acc : List Hit × Nat × Finset String × Finset String) :
    Prop :=
  (acc.1.map Hit.uidKey).Nodup
  ∧ (∀ x ∈ acc.1, x.uidKey ∈ acc.2.2.1)
  ∧ (∀ x ∈ acc.1, x.uidKey ∉ kIds0)
  ∧ kIds0 ⊆ acc.2.2.1

/-! ## Concrete instances used in the claim theorems -/

/-- Hits of the comparison-query scenario: exact name matches for the two
detected entities sit at positions 4 and 7. -/
def c1Hit0 : Hit := ⟨"h0", "doc0", { name := some "Owlbear", uid := some "h0" }, (10 : ℚ)/100⟩

def c1Hit1 : Hit := ⟨"h1", "doc1", { name := some "Beholder", uid := some "h1" }, (11 : ℚ)/100⟩

def c1Hit2 : Hit := ⟨"h2", "doc2", { name := some "Orc", uid := some "h2" }, (12 : ℚ)/100⟩

def c1Hit3 : Hit := ⟨"h3", "doc3", { name := some "Goblin", uid := some "h3" }, (13 : ℚ)/100⟩

def c1Hit4 : Hit := ⟨"h4", "doc4", { name := some "Red Dragon", uid := some "h4" }, (14 : ℚ)/100⟩

def c1Hit5 : Hit := ⟨"h5", "doc5", { name := some "Troll", uid := some "h5" }, (15 : ℚ)/100⟩

def c1Hit6 : Hit := ⟨"h6", "doc6", { name := some "Lich", uid := some "h6" }, (16 : ℚ)/100⟩

def c1Hit7 : Hit := ⟨"h7", "doc7", { name := some "White Dragon", uid := some "h7" }, (17 : ℚ)/100⟩

def c1Hit8 : Hit := ⟨"h8", "doc8", { name := some "Kobold", uid := some "h8" }, (18 : ℚ)/100⟩

/-- Hit list of the comparison-query scenario in retrieved order. -/
def c1Hits : List Hit :=
  [c1Hit0, c1Hit1, c1Hit2, c1Hit3, c1Hit4, c1Hit5, c1Hit6, c1Hit7, c1Hit8]

/-- Top kept hit of the enhancement scenario: it carries a parent category
identifier that is not among the kept identifiers. -/
def c2HitA : Hit :=
  ⟨"a", "docA",
    { name := some "Owlbear", uid := some "a", parent_category_id := some "cat1" }, (1 : ℚ)/5⟩

/-- Second kept hit of the enhancement scenario. -/
def c2HitB : Hit := ⟨"b", "docB", { name := some "Bear", uid := some "b" }, (3 : ℚ)/10⟩

/-- Store oracle of the enhancement scenario. -/
def c2Store : Nat → Finset String → List Hit := fun _ _ => [c2HitA, c2HitB]

/-- Get-by-id oracle of the enhancement scenario: the parent category is
present and fetchable. -/
def c2GetById : String → Option (String × String × Metadata) :=
  fun i => if i = "cat1" then some ("cat1", "catdoc", { name := some "Bears" }) else none

/-- Category hit that the parent-category injection would insert at
position 1. -/
def c2CatHit : Hit := ⟨"cat1", "catdoc", { name := some "Bears" }, c2HitA.distance + (5 : ℚ)/100⟩

/-- Passage whose parsed query_must holds a contain_range clause lacking
the min key. -/
def c3HitMissingMin : Hit :=
  ⟨"bad", "docbad",
    { uid := some "bad", query_must := some (.parsed { contain_range := some ⟨none, some 13⟩ }) },
    (1 : ℚ)/10⟩

/-- Store oracle returning only the passage with the defective range
clause. -/
def c3Store : Nat → Finset String → List Hit := fun _ _ => [c3HitMissingMin]

/-- Passage whose query_must metadata string fails to parse as JSON. -/
def c3HitMalformed : Hit :=
  ⟨"m", "docm", { uid := some "m", query_must := some .malformed }, 0⟩

/-! ## Helper lemmas -/

theorem pyMaxBySnd_mem (hd : Nat × ℚ) (tl : List (Nat × ℚ)) : pyMaxBySnd hd tl ∈ hd :: tl := by
  induction tl generalizing hd with
  | nil => simp [pyMaxBySnd]
  | cons a tl ih =>
    have h := ih (if hd.2 < a.2 then a else hd)
    simp only [pyMaxBySnd, List.foldl_cons] at h ⊢
    rcases List.mem_cons.mp h with h | h
    · rw [h]
      split_ifs
      · exact List.mem_cons_of_mem _ (List.mem_cons_self _ _)
      · exact List.mem_cons_self _ _
    · exact List.mem_cons_of_mem _ (List.mem_cons_of_mem _ h)

theorem pyMaxBySnd_le (hd : Nat × ℚ) (tl : List (Nat × ℚ)) :
    ∀ x ∈ hd :: tl, x.2 ≤ (pyMaxBySnd hd tl).2 := by
  induction tl generalizing hd with
  | nil =>
    intro x hx
    simp only [List.mem_singleton] at hx
    exact hx ▸ le_refl _
  | cons a tl ih =>
    intro x hx
    have hstep : hd.2 ≤ (if hd.2 < a.2 then a else hd).2 ∧
        a.2 ≤ (if hd.2 < a.2 then a else hd).2 := by
      split_ifs with hc
      · exact ⟨le_of_lt hc, le_refl _⟩
      · exact ⟨le_refl _, le_of_not_lt hc⟩
    have hih := ih (if hd.2 < a.2 then a else hd)
    simp only [pyMaxBySnd, List.foldl_cons] at hih ⊢
    have hhead := hih (if hd.2 < a.2 then a else hd) (List.mem_cons_self _ _)
    rcases List.mem_cons.mp hx with rfl | hx1
    · exact le_trans hstep.1 hhead
    · rcases List.mem_cons.mp hx1 with rfl | hx2
      · exact le_trans hstep.2 hhead
      · exact hih x (List.mem_cons_of_mem _ hx2)

theorem mem_gapList (k : Nat) (ds : List ℚ) (i : Nat) (g : ℚ) :
    (i, g) ∈ gapList k ds ↔
      2 ≤ i ∧ i < min ds.length k ∧ g = ds.getD i 0 - ds.getD (i - 1) 0 := by
  simp only [gapList, List.mem_map, List.mem_range']
  constructor
  · rintro ⟨a, ⟨j, hj, haj⟩, heq⟩
    have h1 : a = i := (Prod.mk.injEq _ _ _ _).mp heq |>.1
    have h2 : g = ds.getD a 0 - ds.getD (a - 1) 0 := ((Prod.mk.injEq _ _ _ _).mp heq |>.2).symm
    subst h1
    exact ⟨by omega, by omega, h2⟩
  · rintro ⟨h2, hlt, rfl⟩
    exact ⟨i, ⟨i - 2, by omega, by omega⟩, rfl⟩

theorem scanCount_eq_takeWhile (cutoff : ℚ) (l : List ℚ) :
    scanCount cutoff l = (l.takeWhile (fun d => decide (d ≤ cutoff))).length := by
  induction l with
  | nil => rfl
  | cons d l ih =>
    by_cases h : d ≤ cutoff
    · simp [scanCount, List.takeWhile_cons, h, ih]
    · simp [scanCount, List.takeWhile_cons, h]

/-! ## Claim theorems -/

/-- C3 counterexample: a passage whose query_must parses but whose
contain_range clause lacks the min key is not treated as always-passing:
the chunk decision raises (KeyError in the source) and the whole
filtering-enabled retrieval aborts with that error. -/
theorem c3_missing_min_aborts_request :
    chunkDecision "7th level cleric" ∅ c3HitMissingMin = .error () ∧
    retrieve_with_filtering c3Store "7th level cleric" 5 ((2 : ℚ)/5) 3 = .error () :=
  ⟨rfl, rfl⟩

/-- C3 (amended): a passage whose query_must metadata fails to parse is
treated as always-passing: the chunk decision keeps the passage (or skips
it as an already-kept duplicate) and never raises. -/
theorem c3_parse_failure_fail_open (q : String) (kIds : Finset String) (h : Hit)
    (hm : h.metadata.query_must = some .malformed) :
    chunkDecision q kIds h = .ok .keep ∨ chunkDecision q kIds h = .ok .skip := by
  unfold chunkDecision
  by_cases hu : h.uidKey ∈ kIds
  · right
    rw [if_pos hu]
  · left
    rw [if_neg hu, hm]
    dsimp only
    split_ifs <;> rfl

/-- C3 witness: the fail-open theorem applied to a concrete malformed
passage. -/
theorem c3_parse_failure_fail_open_witness :
    chunkDecision "q" ∅ c3HitMalformed = .ok .keep ∨
    chunkDecision "q" ∅ c3HitMalformed = .ok .skip :=
  c3_parse_failure_fail_open "q" ∅ c3HitMalformed rfl

/-- C4 counterexample: with k = 1 and a two-element distance list the
selector keeps a single hit, below the minimum of 2 the claim states for
every k. -/
theorem c4_keep_count_k1_counterexample :
    1 < ([(1 : ℚ)/10, 1/5] : List ℚ).length ∧
    keepCountFn 1 ((2 : ℚ)/5) [(1 : ℚ)/10, 1/5] = 1 ∧
    ¬ 2 ≤ keepCountFn 1 ((2 : ℚ)/5) [(1 : ℚ)/10, 1/5] := by
  refine ⟨by norm_num, ?_, ?_⟩ <;>
    norm_num [keepCountFn, preKeepCount, gapList, scanCount, List.range']

/-- C4 (amended): for every distance list of length greater than 1 and
every k of at least 2, the cutoff selector keeps at least 2 and at most
min(k, len) hits. -/
theorem c4_keep_count_bounds (k : Nat) (thr : ℚ) (ds : List ℚ)
    (hlen : 1 < ds.length) (hk : 2 ≤ k) :
    2 ≤ keepCountFn k thr ds ∧ keepCountFn k thr ds ≤ min k ds.length := by
  simp only [keepCountFn]
  rw [if_pos hlen]
  constructor <;> omega

/-- C4 witness: the bounds applied at a concrete list and k. -/
theorem c4_keep_count_bounds_witness :
    2 ≤ keepCountFn 2 ((2 : ℚ)/5) [(1 : ℚ)/10, 1/5] ∧
    keepCountFn 2 ((2 : ℚ)/5) [(1 : ℚ)/10, 1/5] ≤ min 2 ([(1 : ℚ)/10, 1/5] : List ℚ).length :=
  c4_keep_count_bounds 2 ((2 : ℚ)/5) [(1 : ℚ)/10, 1/5] (by norm_num) (by norm_num)

/-- C6: the gap-based cutoff selector computes gaps exactly for the
positions from 2 up to (excluding) min(len, k); when the largest such gap
(first position wins ties) reaches the 0.06 cliff it keeps exactly that
gap's position before clamping, otherwise it counts the leading hits
within distance[0] + distanceThreshold, stopping at the first hit beyond
the cutoff; and on the concrete scenario distances with k = 5 and
threshold 0.4 it keeps exactly the first three hits. -/
theorem c6_gap_cutoff_selection (k : Nat) (thr : ℚ) (ds : List ℚ) :
    (∀ i g, (i, g) ∈ gapList k ds ↔
        2 ≤ i ∧ i < min ds.length k ∧ g = ds.getD i 0 - ds.getD (i - 1) 0)
    ∧ (∀ g gs, gapList k ds = g :: gs →
        pyMaxBySnd g gs ∈ gapList k ds
        ∧ (∀ x ∈ gapList k ds, x.2 ≤ (pyMaxBySnd g gs).2)
        ∧ ((6 : ℚ)/100 ≤ (pyMaxBySnd g gs).2 → preKeepCount k thr ds = (pyMaxBySnd g gs).1)
        ∧ ((pyMaxBySnd g gs).2 < (6 : ℚ)/100 → ∀ d0 rest, ds = d0 :: rest →
            preKeepCount k thr ds =
              1 + (rest.takeWhile (fun d => decide (d ≤ d0 + thr))).length))
    ∧ (gapList k ds = [] → ∀ d0 rest, ds = d0 :: rest →
        preKeepCount k thr ds = 1 + (rest.takeWhile (fun d => decide (d ≤ d0 + thr))).length)
    ∧ keepCountFn 5 ((2 : ℚ)/5) [(10 : ℚ)/100, 15/100, 16/100, 30/100, 32/100] = 3 := by
  refine ⟨fun i g => mem_gapList k ds i g, ?_, ?_, ?_⟩
  · intro g gs hgl
    refine ⟨hgl ▸ pyMaxBySnd_mem g gs, hgl ▸ pyMaxBySnd_le g gs, ?_, ?_⟩
    · intro hcliff
      simp [preKeepCount, hgl, hcliff]
    · intro hlt d0 rest hds
      have hn : ¬ ((6 : ℚ)/100 ≤ (pyMaxBySnd g gs).2) := not_le.mpr hlt
      subst hds
      simp [preKeepCount, hgl, hn, scanCount_eq_takeWhile]
  · intro hgl d0 rest hds
    subst hds
    simp [preKeepCount, hgl, scanCount_eq_takeWhile]
  · norm_num [keepCountFn, preKeepCount, gapList, pyMaxBySnd, scanCount, List.range']

/-- C6 witness: on the scenario distances the gap list is concrete, its
maximum (position 3, size 0.14) reaches the cliff, and the selection
theorem yields the pre-clamp keep count 3. -/
theorem c6_gap_cutoff_selection_witness :
    preKeepCount 5 ((2 : ℚ)/5) [(10 : ℚ)/100, 15/100, 16/100, 30/100, 32/100] = 3 := by
  have hgl : gapList 5 [(10 : ℚ)/100, 15/100, 16/100, 30/100, 32/100] =
      [(2, (1 : ℚ)/100), (3, (14 : ℚ)/100), (4, (2 : ℚ)/100)] := by
    norm_num [gapList, List.range']
  have h := ((c6_gap_cutoff_selection 5 ((2 : ℚ)/5)
      [(10 : ℚ)/100, 15/100, 16/100, 30/100, 32/100]).2.1
      (2, (1 : ℚ)/100) [(3, (14 : ℚ)/100), (4, (2 : ℚ)/100)] hgl).2.2.1
      (by norm_num [pyMaxBySnd])
  rw [h]
  norm_num [pyMaxBySnd]

/-- C7: the iterative filtering loop issues at most the configured
iteration budget of vector-store queries; a round whose batch is empty
ends the loop with one query of this invocation, and a round after which
the kept total reaches k or no rejection occurred ends it likewise. -/
theorem c7_loop_query_budget (store : Nat → Finset String → List Hit) (q : String) (k : Nat) :
    (∀ fuel st st' n, filterLoop store q k fuel st = .ok (st', n) → n ≤ fuel)
    ∧ (∀ fuel st, store k (st.excludedIds ∪ st.keptIds) = [] →
        filterLoop store q k (fuel + 1) st = .ok (st, 1))
    ∧ (∀ fuel st nk ne kIds eIds,
        store k (st.excludedIds ∪ st.keptIds) ≠ [] →
        processBatch q (store k (st.excludedIds ∪ st.keptIds)) st.keptIds st.excludedIds =
          .ok (nk, ne, kIds, eIds) →
        (k ≤ st.allKept.length + nk.length ∨ ne = 0) →
        filterLoop store q k (fuel + 1) st = .ok (⟨eIds, kIds, st.allKept ++ nk⟩, 1)) := by
  refine ⟨?_, ?_, ?_⟩
  · intro fuel
    induction fuel with
    | zero =>
      intro st st' n h
      simp only [filterLoop] at h
      exact le_of_eq (congrArg Prod.snd (Except.ok.inj h)).symm
    | succ fuel ih =>
      intro st st' n h
      simp only [filterLoop] at h
      by_cases hb : (store k (st.excludedIds ∪ st.keptIds)).isEmpty = true
      · rw [if_pos hb] at h
        simp only [Except.ok.injEq, Prod.mk.injEq] at h
        omega
      · rw [if_neg hb] at h
        cases hp : processBatch q (store k (st.excludedIds ∪ st.keptIds)) st.keptIds
            st.excludedIds with
        | error e =>
          rw [hp] at h
          exact absurd h (by simp)
        | ok tup =>
          obtain ⟨nk, ne, kIds, eIds⟩ := tup
          rw [hp] at h
          dsimp only at h
          split_ifs at h with h1 h2 h3
          · simp only [Except.ok.injEq, Prod.mk.injEq] at h
            omega
          · simp only [Except.ok.injEq, Prod.mk.injEq] at h
            omega
          · simp only [Except.ok.injEq, Prod.mk.injEq] at h
            omega
          · cases hr : filterLoop store q k fuel ⟨eIds, kIds, st.allKept ++ nk⟩ with
            | error e =>
              rw [hr] at h
              exact absurd h (by simp)
            | ok res =>
              obtain ⟨rs, rn⟩ := res
              rw [hr] at h
              simp only [Except.ok.injEq, Prod.mk.injEq] at h
              have := ih ⟨eIds, kIds, st.allKept ++ nk⟩ rs rn hr
              omega
  · intro fuel st hempty
    simp only [filterLoop]
    rw [if_pos (by rw [hempty]; rfl)]
  · intro fuel st nk ne kIds eIds hne hp hstop
    have hbne : ¬ ((store k (st.excludedIds ∪ st.keptIds)).isEmpty = true) := by
      cases hsl : store k (st.excludedIds ∪ st.keptIds) with
      | nil => exact absurd hsl hne
      | cons a l => simp [hsl]
    simp only [filterLoop]
    rw [if_neg hbne, hp]
    dsimp only
    split_ifs with h1 h2 h3
    · rfl
    · rfl
    · rfl
    · exfalso
      rcases hstop with hs | hs
      · rw [List.length_append] at h1
        exact h1 hs
      · exact h3 hs

/-- C7 witness: on a store that returns nothing the loop ends after one
query, and the query count is within the budget. -/
theorem c7_loop_query_budget_witness :
    filterLoop (fun _ _ => ([] : List Hit)) "q" 5 3 ⟨∅, ∅, []⟩ = .ok (⟨∅, ∅, []⟩, 1) ∧
    (1 : Nat) ≤ 3 := by
  have h2 := (c7_loop_query_budget (fun _ _ => ([] : List Hit)) "q" 5).2.1 2 ⟨∅, ∅, []⟩ rfl
  exact ⟨h2, (c7_loop_query_budget (fun _ _ => ([] : List Hit)) "q" 5).1 3 ⟨∅, ∅, []⟩
    ⟨∅, ∅, []⟩ 1 h2⟩

/-- C8: contain_one_of passes exactly when every term group holds a term
matching the lowered query at word boundaries (AND of ORs); the cleric
versus fighter scenario queries evaluate to true and false
respectively. -/
theorem c8_contain_one_of_and_of_ors :
    (∀ (q : String) (gs : List (List String)),
      validate_contain_one_of q (some gs) = true ↔
        ∀ g ∈ gs, ∃ t ∈ g,
          reSearch (t.toList.map Char.toLower) (q.toList.map Char.toLower) = true)
    ∧ validate_contain_one_of "7th level cleric attacking armor class 6"
        (some [["cleric", "clerics"], ["armor class 6", "ac 6"]]) = true
    ∧ validate_contain_one_of "7th level fighter attacking armor class 6"
        (some [["cleric", "clerics"], ["armor class 6", "ac 6"]]) = false := by
  refine ⟨?_, by decide, by decide⟩
  intro q gs
  simp [validate_contain_one_of, List.all_eq_true, List.any_eq_true]

/-- C9: a filtering-enabled retrieval whose loop completes with zero kept
chunks returns the explicitly empty result rather than an error. -/
theorem c9_zero_kept_returns_empty (store : Nat → Finset String → List Hit) (q : String)
    (k : Nat) (thr : ℚ) (maxIter : Nat) (st : LoopState) (n : Nat)
    (hloop : filterLoop store q k maxIter ⟨∅, ∅, []⟩ = .ok (st, n))
    (hkept : st.allKept = []) :
    retrieve_with_filtering store q k thr maxIter = .ok [] := by
  unfold retrieve_with_filtering
  rw [hloop]
  dsimp only
  rw [if_pos (by rw [hkept]; rfl)]

/-- C9 witness: the empty-store retrieval keeps nothing and returns the
empty result. -/
theorem c9_zero_kept_returns_empty_witness :
    retrieve_with_filtering (fun _ _ => ([] : List Hit)) "q" 5 ((2 : ℚ)/5) 3 = .ok [] :=
  c9_zero_kept_returns_empty (fun _ _ => ([] : List Hit)) "q" 5 ((2 : ℚ)/5) 3 ⟨∅, ∅, []⟩ 1
    rfl rfl

/-- C1 (code bug): on the comparison query scenario both entities find
exact name matches at positions 4 and 7, yet the repositioning step
inserts them at positions 0 and 1 in reversed relative order, displacing
the original top hit to position 2, instead of placing them at positions
1 and 2 after the unchanged top hit. -/
theorem c1_reposition_displaces_top :
    bestNameMatch "red dragon"
        (c1Hits.map (fun h => (h.metadata.name.getD "").toList.map Char.toLower)) = some 4
    ∧ bestNameMatch "white dragon"
        (c1Hits.map (fun h => (h.metadata.name.getD "").toList.map Char.toLower)) = some 7
    ∧ entityReposition ["red dragon", "white dragon"] c1Hits =
        [c1Hit7, c1Hit4, c1Hit0, c1Hit1, c1Hit2, c1Hit3, c1Hit5, c1Hit6, c1Hit8]
    ∧ c1Hits.head? = some c1Hit0
    ∧ c1Hit7.id ≠ c1Hit0.id ∧ c1Hit4.id ≠ c1Hit0.id ∧ c1Hit7.id ≠ c1Hit4.id :=
  ⟨rfl, rfl, rfl, rfl, by decide, by decide, by decide⟩

set_option maxHeartbeats 1000000 in
/-- C2 (code bug): the filtering-enabled retrieval sorts, truncates and
applies the gap cutoff, but never invokes the augmenter enhancements,
even though they were not applied earlier on this path: on a request
whose top kept hit carries a fetchable parent category absent from the
kept identifiers, the returned list omits the category that the
parent-category injection of the base path would insert at position 1. -/
theorem c2_filtering_skips_enhancements :
    retrieve_with_filtering c2Store "tell me about owlbears" 5 ((2 : ℚ)/5) 3 =
      .ok [c2HitA, c2HitB]
    ∧ c2HitA.metadata.parent_category_id = some "cat1"
    ∧ "cat1" ∉ List.map Hit.id [c2HitA, c2HitB]
    ∧ parentCategoryInject c2GetById [c2HitA, c2HitB] = [c2HitA, c2CatHit, c2HitB]
    ∧ List.map Hit.id [c2HitA, c2CatHit, c2HitB] ≠ List.map Hit.id [c2HitA, c2HitB] := by
  refine ⟨?_, rfl, by decide, rfl, by decide⟩
  have hloop : filterLoop c2Store "tell me about owlbears" 5 3 ⟨∅, ∅, []⟩ =
      .ok (⟨∅, insert "b" (insert "a" (∅ : Finset String)), [c2HitA, c2HitB]⟩, 1) := rfl
  rw [retrieve_with_filtering, hloop]
  norm_num [applyCutoff, sortByDistance, insertByDistance, keepCountFn, preKeepCount,
    gapList, pyMaxBySnd, scanCount, c2HitA, c2HitB]

theorem except_bind_ok {α β γ : Type} (a : α) (f : α → Except γ β) :
    (Except.ok a >>= f) = f a := rfl

theorem except_bind_error {α β γ : Type} (e : γ) (f : α → Except γ β) :
    ((Except.error e : Except γ α) >>= f) = Except.error e := rfl

theorem chunkDecision_keep_not_mem {q : String} {kIds : Finset String} {h : Hit}
    (hd : chunkDecision q kIds h = .ok .keep) : h.uidKey ∉ kIds := by
  intro hm
  unfold chunkDecision at hd
  rw [if_pos hm] at hd
  exact absurd hd (by simp)

theorem batchStep_inv {q : String} {kIds0 : Finset String}
    {acc acc' : List Hit × Nat × Finset String × Finset String} {h : Hit}
    (hstep : batchStep q acc h = .ok acc') (hinv : BatchInv kIds0 acc) :
    BatchInv kIds0 acc' := by
  unfold batchStep at hstep
  cases hd : chunkDecision q acc.2.2.1 h with
  | error e =>
    rw [hd] at hstep
    exact absurd hstep (by simp)
  | ok d =>
    rw [hd] at hstep
    obtain ⟨hnd, hmem, hnot0, hsub⟩ := hinv
    cases d with
    | skip =>
      dsimp only at hstep
      obtain rfl : acc' = acc := (Except.ok.inj hstep).symm
      exact ⟨hnd, hmem, hnot0, hsub⟩
    | keep =>
      have hnotmem : h.uidKey ∉ acc.2.2.1 := chunkDecision_keep_not_mem hd
      dsimp only at hstep
      obtain rfl : acc' = (acc.1 ++ [h], acc.2.1, insert h.uidKey acc.2.2.1, acc.2.2.2) :=
        (Except.ok.inj hstep).symm
      have hnewnot : h.uidKey ∉ acc.1.map Hit.uidKey := by
        intro hc
        obtain ⟨x, hx, hxe⟩ := List.mem_map.mp hc
        exact hnotmem (by rw [← hxe]; exact hmem x hx)
      refine ⟨?_, ?_, ?_, ?_⟩
      · rw [List.map_append]
        refine List.Nodup.append hnd (by simp) ?_
        intro a ha hb
        simp only [List.map_cons, List.map_nil, List.mem_singleton] at hb
        exact hnewnot (hb ▸ ha)
      · intro x hx
        rcases List.mem_append.mp hx with hx | hx
        · exact Finset.mem_insert_of_mem (hmem x hx)
        · simp only [List.mem_singleton] at hx
          subst hx
          exact Finset.mem_insert_self _ _
      · intro x hx
        rcases List.mem_append.mp hx with hx | hx
        · exact hnot0 x hx
        · simp only [List.mem_singleton] at hx
          subst hx
          exact fun hc => hnotmem (hsub hc)
      · exact hsub.trans (Finset.subset_insert _ _)
    | exclude =>
      dsimp only at hstep
      obtain rfl : acc' = (acc.1, acc.2.1 + 1, acc.2.2.1, insert h.uidKey acc.2.2.2) :=
        (Except.ok.inj hstep).symm
      exact ⟨hnd, hmem, hnot0, hsub⟩

theorem foldlM_batchStep_inv (q : String) (kIds0 : Finset String) :
    ∀ (hits : List Hit) (acc res : List Hit × Nat × Finset String × Finset String),
      List.foldlM (batchStep q) acc hits = .ok res → BatchInv kIds0 acc → BatchInv kIds0 res := by
  intro hits
  induction hits with
  | nil =>
    intro acc res h hi
    simp only [List.foldlM_nil] at h
    obtain rfl : acc = res := Except.ok.inj h
    exact hi
  | cons a l ih =>
    intro acc res h hi
    rw [List.foldlM_cons] at h
    cases hs : batchStep q acc a with
    | error e =>
      rw [hs, except_bind_error] at h
      exact absurd h (by simp)
    | ok acc1 =>
      rw [hs, except_bind_ok] at h
      exact ih acc1 res h (batchStep_inv hs hi)

theorem filterLoop_inv (store : Nat → Finset String → List Hit) (q : String) (k : Nat) :
    ∀ fuel st st' n, filterLoop store q k fuel st = .ok (st', n) → LoopInv st → LoopInv st' := by
  intro fuel
  induction fuel with
  | zero =>
    intro st st' n h hi
    simp only [filterLoop, Except.ok.injEq, Prod.mk.injEq] at h
    exact h.1 ▸ hi
  | succ fuel ih =>
    intro st st' n h hi
    simp only [filterLoop] at h
    by_cases hb : (store k (st.excludedIds ∪ st.keptIds)).isEmpty = true
    · rw [if_pos hb] at h
      simp only [Except.ok.injEq, Prod.mk.injEq] at h
      exact h.1 ▸ hi
    · rw [if_neg hb] at h
      cases hp : processBatch q (store k (st.excludedIds ∪ st.keptIds)) st.keptIds
          st.excludedIds with
      | error e =>
        rw [hp] at h
        exact absurd h (by simp)
      | ok tup =>
        obtain ⟨nk, ne, kIds, eIds⟩ := tup
        rw [hp] at h
        dsimp only at h
        have hbi : BatchInv st.keptIds (nk, ne, kIds, eIds) :=
          foldlM_batchStep_inv q st.keptIds _ _ _ hp
            ⟨by simp, by simp, by simp, Finset.Subset.refl _⟩
        have hst : LoopInv ⟨eIds, kIds, st.allKept ++ nk⟩ := by
          obtain ⟨hnd1, hmem1⟩ := hi
          obtain ⟨hnd2, hmem2, hnot0, hsub⟩ := hbi
          constructor
          · rw [List.map_append]
            refine List.Nodup.append hnd1 hnd2 ?_
            intro a ha hb2
            obtain ⟨x, hx, rfl⟩ := List.mem_map.mp ha
            obtain ⟨y, hy, hyx⟩ := List.mem_map.mp hb2
            refine hnot0 y hy ?_
            rw [hyx]
            exact hmem1 x hx
          · intro x hx
            rcases List.mem_append.mp hx with hx | hx
            · exact hsub (hmem1 x hx)
            · exact hmem2 x hx
        split_ifs at h with h1 h2 h3
        · simp only [Except.ok.injEq, Prod.mk.injEq] at h
          exact h.1 ▸ hst
        · simp only [Except.ok.injEq, Prod.mk.injEq] at h
          exact h.1 ▸ hst
        · simp only [Except.ok.injEq, Prod.mk.injEq] at h
          exact h.1 ▸ hst
        · cases hr : filterLoop store q k fuel ⟨eIds, kIds, st.allKept ++ nk⟩ with
          | error e =>
            rw [hr] at h
            exact absurd h (by simp)
          | ok res =>
            obtain ⟨rs, rn⟩ := res
            rw [hr] at h
            simp only [Except.ok.injEq, Prod.mk.injEq] at h
            exact h.1 ▸ ih _ rs rn hr hst

theorem insertByDistance_perm (x : Hit) (l : List Hit) :
    (insertByDistance x l).Perm (x :: l) := by
  induction l with
  | nil => exact List.Perm.refl _
  | cons y ys ih =>
    simp only [insertByDistance]
    split_ifs with hc
    · exact List.Perm.refl _
    · exact (ih.cons y).trans (List.Perm.swap x y ys)

theorem foldl_insertByDistance_perm :
    ∀ (l acc : List Hit), (l.foldl (fun a x => insertByDistance x a) acc).Perm (l ++ acc) := by
  intro l
  induction l with
  | nil => intro acc; simp
  | cons a l ih =>
    intro acc
    simp only [List.foldl_cons, List.cons_append]
    exact (ih (insertByDistance a acc)).trans
      ((List.Perm.append_left l (insertByDistance_perm a acc)).trans List.perm_middle)

theorem sortByDistance_perm (l : List Hit) : (sortByDistance l).Perm l := by
  have h := foldl_insertByDistance_perm l []
  simpa [sortByDistance] using h

theorem nodup_map_take (n : Nat) (l : List Hit) (h : (l.map Hit.uidKey).Nodup) :
    ((l.take n).map Hit.uidKey).Nodup := by
  rw [List.map_take]
  exact List.Nodup.sublist (List.take_sublist n _) h

/-- C10: a filtering-enabled retrieval that returns a result never holds
two entries with the same uid: the duplicate guard keeps each uid at most
once and sorting, truncation and the cutoff preserve that. -/
theorem c10_result_uids_nodup (store : Nat → Finset String → List Hit) (q : String)
    (k : Nat) (thr : ℚ) (maxIter : Nat) (hits : List Hit)
    (h : retrieve_with_filtering store q k thr maxIter = .ok hits) :
    (hits.map Hit.uidKey).Nodup := by
  unfold retrieve_with_filtering at h
  cases hl : filterLoop store q k maxIter ⟨∅, ∅, []⟩ with
  | error e =>
    rw [hl] at h
    exact absurd h (by simp)
  | ok res =>
    obtain ⟨st, n⟩ := res
    rw [hl] at h
    dsimp only at h
    have hinv : LoopInv st :=
      filterLoop_inv store q k maxIter ⟨∅, ∅, []⟩ st n hl ⟨by simp, by simp⟩
    by_cases he : st.allKept.isEmpty = true
    · rw [if_pos he] at h
      obtain rfl : hits = [] := (Except.ok.inj h).symm
      simp
    · rw [if_neg he] at h
      obtain rfl : hits = applyCutoff k thr ((sortByDistance st.allKept).take k) :=
        (Except.ok.inj h).symm
      have hsorted : ((sortByDistance st.allKept).map Hit.uidKey).Nodup :=
        (List.Perm.nodup_iff ((sortByDistance_perm st.allKept).map Hit.uidKey)).mpr hinv.1
      have htake := nodup_map_take k _ hsorted
      unfold applyCutoff
      split_ifs
      · exact nodup_map_take _ _ htake
      · exact htake

/-- C10 witness: the theorem applied to the empty-store retrieval. -/
theorem c10_result_uids_nodup_witness : ((([] : List Hit)).map Hit.uidKey).Nodup :=
  c10_result_uids_nodup (fun _ _ => []) "q" 5 ((2 : ℚ)/5) 3 [] rfl

theorem isWordChar_of_isDigit {c : Char} (h : c.isDigit = true) : isWordChar c = true := by
  simp [isWordChar, Char.isAlphanum, h]

theorem mem_takeWhile_digit {l : List Char} {c : Char}
    (h : c ∈ l.takeWhile Char.isDigit) : c.isDigit = true := by
  induction l with
  | nil => simp [List.takeWhile] at h
  | cons a l ih =>
    rw [List.takeWhile_cons] at h
    by_cases ha : Char.isDigit a = true
    · rw [if_pos ha] at h
      rcases List.mem_cons.mp h with rfl | h
      · exact ha
      · exact ih h
    · rw [if_neg ha] at h
      simp at h

theorem head_dropWhile_not_digit (l : List Char) :
    ∀ c, (l.dropWhile Char.isDigit).head? = some c → c.isDigit = false := by
  induction l with
  | nil =>
    intro c h
    simp [List.dropWhile] at h
  | cons a l ih =>
    intro c h
    rw [List.dropWhile_cons] at h
    by_cases ha : Char.isDigit a = true
    · rw [if_pos ha] at h
      exact ih c h
    · rw [if_neg ha] at h
      simp only [List.head?_cons, Option.some.injEq] at h
      subst h
      simpa using ha

theorem dropWhileDigit_length_le (l : List Char) :
    (l.dropWhile Char.isDigit).length ≤ l.length := by
  induction l with
  | nil => simp [List.dropWhile]
  | cons a l ih =>
    rw [List.dropWhile_cons]
    by_cases ha : Char.isDigit a = true
    · rw [if_pos ha]
      exact Nat.le_succ_of_le ih
    · rw [if_neg ha]

theorem takeWhile_unique {p : Char → Bool} :
    ∀ {a : List Char} {l b : List Char}, l = a ++ b → (∀ c ∈ a, p c = true) →
      (∀ c, b.head? = some c → p c = false) →
      a = l.takeWhile p ∧ b = l.dropWhile p := by
  intro a
  induction a with
  | nil =>
    intro l b hl ha hb
    rw [List.nil_append] at hl
    subst hl
    cases l with
    | nil => exact ⟨rfl, rfl⟩
    | cons x xs =>
      have hx := hb x rfl
      rw [List.takeWhile_cons, List.dropWhile_cons, if_neg (by simp [hx]), if_neg (by simp [hx])]
      exact ⟨rfl, rfl⟩
  | cons x a ih =>
    intro l b hl ha hb
    subst hl
    have hx : p x = true := ha x (List.mem_cons_self _ _)
    obtain ⟨h1, h2⟩ := ih rfl (fun c hc => ha c (List.mem_cons_of_mem _ hc)) hb
    constructor
    · rw [List.cons_append, List.takeWhile_cons, if_pos hx, ← h1]
    · rw [List.cons_append, List.dropWhile_cons, if_pos hx, ← h2]

theorem append_eq_append_singleton {a s pre0 : List Char} {c0 : Char}
    (h : a ++ s = pre0 ++ [c0]) (hs : s ≠ []) :
    ∃ s0, s = s0 ++ [c0] ∧ pre0 = a ++ s0 := by
  rcases List.append_eq_append_iff.mp h with ⟨a', ha1, ha2⟩ | ⟨c', hc1, hc2⟩
  · exact ⟨a', ha2, ha1⟩
  · cases c' with
    | nil =>
      simp only [List.nil_append] at hc2
      refine ⟨[], by rw [← hc2]; rfl, by simp [hc1]⟩
    | cons d ds =>
      simp only [List.cons_append, List.cons.injEq] at hc2
      obtain ⟨rfl, hc3⟩ := hc2
      exact absurd (List.append_eq_nil.mp hc3.symm).2 hs

theorem goodRun_cons_not_digit {c : Char} {cs : List Char} {pw : Bool} {n : Nat}
    (hc : c.isDigit = false) :
    GoodRun pw (c :: cs) n ↔ GoodRun (isWordChar c) cs n := by
  constructor
  · rintro ⟨pre, run, post, heq, hne, hdig, hpre, hpost, hval⟩
    cases pre with
    | nil =>
      cases run with
      | nil => exact absurd rfl hne
      | cons r rs =>
        simp only [List.nil_append, List.cons_append, List.cons.injEq] at heq
        obtain ⟨rfl, -⟩ := heq
        exact absurd (hdig c (List.mem_cons_self _ _)) (by simp [hc])
    | cons p ps =>
      simp only [List.cons_append, List.cons.injEq] at heq
      obtain ⟨rfl, heq2⟩ := heq
      refine ⟨ps, run, post, heq2, hne, hdig, ?_, hpost, hval⟩
      rcases hpre with ⟨habs, -⟩ | ⟨pre0, c0, hps, hw⟩
      · exact absurd habs (by simp)
      · cases pre0 with
        | nil =>
          simp only [List.nil_append, List.cons.injEq] at hps
          obtain ⟨rfl, rfl⟩ := hps
          exact Or.inl ⟨rfl, hw⟩
        | cons p0 ps0 =>
          simp only [List.cons_append, List.cons.injEq] at hps
          obtain ⟨rfl, rfl⟩ := hps
          exact Or.inr ⟨ps0, c0, rfl, hw⟩
  · rintro ⟨pre, run, post, heq, hne, hdig, hpre, hpost, hval⟩
    refine ⟨c :: pre, run, post, by simp [heq], hne, hdig, ?_, hpost, hval⟩
    rcases hpre with ⟨rfl, hpw⟩ | ⟨pre0, c0, rfl, hw⟩
    · exact Or.inr ⟨[], c, rfl, hpw⟩
    · exact Or.inr ⟨c :: pre0, c0, rfl, hw⟩

theorem postBoundary_head_not_digit {post : List Char} (hpost : PostBoundary post) :
    ∀ x, post.head? = some x → x.isDigit = false := by
  intro x hx
  rcases hpost with rfl | ⟨c0, post0, rfl, hw⟩
  · simp at hx
  · simp only [List.head?_cons, Option.some.injEq] at hx
    obtain rfl := hx
    by_cases hd : c0.isDigit = true
    · exact absurd (isWordChar_of_isDigit hd) (by simp [hw])
    · simpa using hd

theorem goodRun_cons_digit {c : Char} {cs : List Char} {pw : Bool} {n : Nat}
    (hc : c.isDigit = true) :
    GoodRun pw (c :: cs) n ↔
      ((pw = false ∧ PostBoundary (cs.dropWhile Char.isDigit) ∧
        n = natOfDigits (c :: cs.takeWhile Char.isDigit))
       ∨ GoodRun true (cs.dropWhile Char.isDigit) n) := by
  have hcs : cs.takeWhile Char.isDigit ++ cs.dropWhile Char.isDigit = cs :=
    List.takeWhile_append_dropWhile Char.isDigit cs
  constructor
  · rintro ⟨pre, run, post, heq, hne, hdig, hpre, hpost, hval⟩
    cases pre with
    | nil =>
      rw [List.nil_append] at heq
      obtain ⟨hrun, hpost2⟩ :=
        takeWhile_unique (p := Char.isDigit) heq hdig (postBoundary_head_not_digit hpost)
      rw [List.takeWhile_cons, if_pos hc] at hrun
      rw [List.dropWhile_cons, if_pos hc] at hpost2
      rcases hpre with ⟨-, hpw⟩ | ⟨pre0, c0, habs, -⟩
      · exact Or.inl ⟨hpw, hpost2 ▸ hpost, by rw [hval, hrun]⟩
      · exact absurd habs.symm (by simp)
    | cons p ps =>
      simp only [List.cons_append, List.cons.injEq] at heq
      obtain ⟨rfl, heq2⟩ := heq
      rcases hpre with ⟨habs, -⟩ | ⟨pre0, c0, hsplit, hw⟩
      · exact absurd habs (by simp)
      have hps2 : ps ++ (run ++ post) = cs.takeWhile Char.isDigit ++ cs.dropWhile Char.isDigit := by
        rw [hcs, ← List.append_assoc, heq2]
      have hcontra : (∀ x ∈ ps, x ∈ cs.takeWhile Char.isDigit) → False := by
        intro hsub
        have hc0mem : c0 ∈ c :: ps := by
          rw [hsplit]
          exact List.mem_append_right _ (List.mem_singleton.mpr rfl)
        have hc0dig : c0.isDigit = true := by
          rcases List.mem_cons.mp hc0mem with rfl | hmem
          · exact hc
          · exact mem_takeWhile_digit (hsub c0 hmem)
        exact absurd (isWordChar_of_isDigit hc0dig) (by simp [hw])
      rcases List.append_eq_append_iff.mp hps2 with ⟨a', ha1, ha2⟩ | ⟨c', hc1, hc2⟩
      · exact absurd (fun x hx => by rw [ha1]; exact List.mem_append_left a' hx) hcontra
      · by_cases hcnil : c' = []
        · subst hcnil
          rw [List.append_nil] at hc1
          exact absurd (fun x hx => hc1 ▸ hx) hcontra
        · have hsplit2 : (c :: cs.takeWhile Char.isDigit) ++ c' = pre0 ++ [c0] := by
            rw [← hsplit, List.cons_append, ← hc1]
          obtain ⟨s0, hs0, -⟩ := append_eq_append_singleton hsplit2 hcnil
          refine Or.inr ⟨c', run, post, by rw [hc2, List.append_assoc], hne, hdig,
            Or.inr ⟨s0, c0, hs0, hw⟩, hpost, hval⟩
  · rintro (⟨hpw, hpostr, hvalr⟩ | ⟨pre, run, post, hr, hne, hdig, hpreB, hpost, hval⟩)
    · refine ⟨[], c :: cs.takeWhile Char.isDigit, cs.dropWhile Char.isDigit,
        by rw [List.nil_append, List.cons_append, hcs], by simp, ?_,
        Or.inl ⟨rfl, hpw⟩, hpostr, hvalr⟩
      intro x hx
      rcases List.mem_cons.mp hx with rfl | hx
      · exact hc
      · exact mem_takeWhile_digit hx
    · rcases hpreB with ⟨-, habs⟩ | ⟨pre0, c0, rfl, hw⟩
      · exact absurd habs (by simp)
      refine ⟨(c :: cs.takeWhile Char.isDigit) ++ (pre0 ++ [c0]), run, post, ?_, hne, hdig,
        Or.inr ⟨(c :: cs.takeWhile Char.isDigit) ++ pre0, c0, by rw [List.append_assoc], hw⟩,
        hpost, hval⟩
      simp only [List.append_assoc, List.cons_append] at hr ⊢
      rw [← hr, hcs]

theorem okTrail_iff_postBoundary (r : List Char) :
    ((match r.head? with
      | none => true
      | some d => !(isWordChar d)) = true) ↔ PostBoundary r := by
  cases r with
  | nil => simp [PostBoundary]
  | cons d ds =>
    simp only [List.head?_cons, PostBoundary, Bool.not_eq_true']
    constructor
    · intro h
      exact Or.inr ⟨d, ds, rfl, h⟩
    · rintro (h | ⟨c0, post0, heq, hw⟩)
      · exact absurd h (by simp)
      · simp only [List.cons.injEq] at heq
        rw [heq.1]
        exact hw

theorem mem_extractNumsF :
    ∀ (N : Nat) (l : List Char), l.length ≤ N → ∀ (pw : Bool) (n : Nat),
      (n ∈ extractNumsF N pw l ↔ GoodRun pw l n) := by
  intro N
  induction N with
  | zero =>
    intro l hl pw n
    obtain rfl : l = [] := List.length_eq_zero.mp (Nat.le_zero.mp hl)
    simp only [extractNumsF, GoodRun, List.append_eq_nil, List.not_mem_nil, false_iff,
      not_exists]
    rintro x x1 x2 ⟨heq, hne, -⟩
    have h2 := List.append_eq_nil.mp heq.symm
    exact hne (List.append_eq_nil.mp h2.1).2
  | succ N ih =>
    intro l hl pw n
    cases l with
    | nil =>
      simp only [extractNumsF, GoodRun, List.append_eq_nil, List.not_mem_nil, false_iff,
        not_exists]
      rintro x x1 x2 ⟨heq, hne, -⟩
      have h2 := List.append_eq_nil.mp heq.symm
      exact hne (List.append_eq_nil.mp h2.1).2
    | cons c cs =>
      by_cases hc : c.isDigit = true
      · rw [goodRun_cons_digit hc]
        rw [show extractNumsF (N + 1) pw (c :: cs) =
          (if !pw &&
              (match (cs.dropWhile Char.isDigit).head? with
               | none => true
               | some d => !(isWordChar d)) then
            [natOfDigits (c :: cs.takeWhile Char.isDigit)]
          else []) ++ extractNumsF N true (cs.dropWhile Char.isDigit) from by
            rw [extractNumsF, if_pos hc]]
        rw [List.mem_append]
        have hrest := ih (cs.dropWhile Char.isDigit)
          (le_trans (dropWhileDigit_length_le cs) (Nat.le_of_succ_le_succ hl)) true n
        constructor
        · rintro (hmem | hmem)
          · by_cases hcond : (!pw &&
                (match (cs.dropWhile Char.isDigit).head? with
                 | none => true
                 | some d => !(isWordChar d))) = true
            · rw [if_pos hcond] at hmem
              simp only [List.mem_singleton] at hmem
              rw [Bool.and_eq_true] at hcond
              obtain ⟨hpw, htr⟩ := hcond
              exact Or.inl ⟨by simpa using hpw, (okTrail_iff_postBoundary _).mp htr, hmem⟩
            · rw [if_neg hcond] at hmem
              simp at hmem
          · exact Or.inr (hrest.mp hmem)
        · rintro (⟨hpw, hpost, hval⟩ | hg)
          · left
            rw [if_pos (by
              rw [Bool.and_eq_true]
              exact ⟨by simp [hpw], (okTrail_iff_postBoundary _).mpr hpost⟩)]
            simpa using hval
          · exact Or.inr (hrest.mpr hg)
      · have hc2 : c.isDigit = false := by simpa using hc
        rw [goodRun_cons_not_digit hc2]
        rw [show extractNumsF (N + 1) pw (c :: cs) = extractNumsF N (isWordChar c) cs from by
          rw [extractNumsF, if_neg hc]]
        exact ih cs (Nat.le_of_succ_le_succ hl) (isWordChar c) n

theorem mem_extractNums (pw : Bool) (l : List Char) (n : Nat) :
    n ∈ extractNums pw l ↔ GoodRun pw l n :=
  mem_extractNumsF l.length l (le_refl _) pw n

/-- C5 counterexample: the query text ac6 holds the maximal digit run 6,
inside the range of the clause with min 6 and max 6, yet the clause
evaluates false because the digit is glued to a letter and the
word-boundary digit pattern does not extract it. -/
theorem c5_embedded_digit_counterexample :
    validate_contain_range "ac6" (some ⟨some 6, some 6⟩) = .ok false ∧
    MaxDigitRun "ac6".toList 6 ∧ (6 : Int) ≤ 6 ∧ (6 : Int) ≤ 6 :=
  ⟨rfl,
   ⟨['a', 'c'], ['6'], [], by decide, by decide, by decide,
    Or.inr ⟨['a'], 'c', by decide, by decide⟩, Or.inl rfl, by decide⟩,
   le_refl 6, le_refl 6⟩

/-- C5 (amended): a contain_range clause with both bounds present
evaluates true exactly when some word-boundary-delimited run of digits in
the query text, read as an integer, lies within the inclusive range; a
digit run immediately preceded or followed by a letter, digit or
underscore is not considered. -/
theorem c5_contain_range_word_boundary (q : String) (mn mx : Int) (b : Bool)
    (h : validate_contain_range q (some ⟨some mn, some mx⟩) = .ok b) :
    b = true ↔
      ∃ nval : Nat, GoodRun false q.toList nval ∧ mn ≤ (nval : Int) ∧ (nval : Int) ≤ mx := by
  have h2 : Except.ok ((extractNums false q.toList).any
      (fun m => decide (mn ≤ (m : Int)) && decide ((m : Int) ≤ mx))) =
      (Except.ok b : Except Unit Bool) := h
  have hb := Except.ok.inj h2
  rw [← hb]
  rw [List.any_eq_true]
  constructor
  · rintro ⟨m, hm, hcmp⟩
    rw [Bool.and_eq_true, decide_eq_true_eq, decide_eq_true_eq] at hcmp
    exact ⟨m, (mem_extractNums false q.toList m).mp hm, hcmp.1, hcmp.2⟩
  · rintro ⟨m, hg, h1, h2⟩
    refine ⟨m, (mem_extractNums false q.toList m).mpr hg, ?_⟩
    rw [Bool.and_eq_true, decide_eq_true_eq, decide_eq_true_eq]
    exact ⟨h1, h2⟩

/-- C5 witness: the amended characterization applied to a query whose
standalone literal 13 lies in the range from 10 to 13. -/
theorem c5_contain_range_word_boundary_witness :
    (true = true ↔
      ∃ nval : Nat, GoodRun false ("wisdom 13").toList nval ∧
        (10 : Int) ≤ (nval : Int) ∧ (nval : Int) ≤ 13) :=
  c5_contain_range_word_boundary "wisdom 13" 10 13 true rfl
